import Mathlib

/-!
# Verification of the LinDB query-stage execution core (`query/stage/base_stage.go`)

This file gives a shallow embedding of the `baseStage` component of the LinDB
query engine and proves the specification claims about it.

The embedding follows the Go source:

* A `PlanNode` interface value is either `nil` or an object with an
  `Execute() error` method and a `Children() []PlanNode` method.  In the
  model a node carries a `label` (standing for its object identity), the
  result its `Execute` method returns (`none` for a nil error, `some e`
  for an error value `e`), and its ordered list of children.  A `nil`
  interface value is the constructor `PlanNode.nil`.
* `baseStage` is a structure with fields `ctx`, `stageType`, `execPool`;
  the nilable Go fields are `Option`s.
* The traversal `baseStage.execute` is translated clause by clause from
  the source; `executeTraced` is the same traversal instrumented to also
  record the labels of the nodes whose `Execute` method ran, in order.
* Continuations are modelled as functions into an arbitrary result type
  `ω`; instantiating them with event loggers makes "which continuation
  fired, how many times" observable.
* The concurrency pool is not part of the given sources; its guaranteed
  behavior is modelled from the spec (see `PoolBehavior` / `runTask`).
-/

/- `ε` is the type of Go `error` interface values returned by plan nodes;
`ω` is the result type of the caller-supplied continuations.  Both are
kept abstract; claims are proved for every instantiation. -/
variable {ε : Type} {ω : Type} {σ : Type}

/-- A `PlanNode` interface value: `nil`, or a node with an identity label,
the error result of its own `Execute` method, and its ordered children
(`Children()` returns them in declaration order). -/
inductive PlanNode (ε : Type) where
  | nil : PlanNode ε
  | node (label : Nat) (res : Option ε) (children : List (PlanNode ε)) : PlanNode ε

/-- Values of `context.Context`: only identity matters to this core. -/
structure GoContext where
  id : Nat
deriving DecidableEq, Repr

/-- The stage `Type` classification tag. -/
structure StageType where
  tag : Nat
deriving DecidableEq, Repr

/-- A `concurrent.Pool` reference: only identity matters to this core. -/
structure Pool where
  id : Nat
deriving DecidableEq, Repr

/-- The `baseStage` struct: a context, a stage type tag and an execution
pool; `ctx` and `execPool` are nilable in Go, hence `Option`s. -/
structure baseStage where
  ctx : Option GoContext
  stageType : StageType
  execPool : Option Pool
deriving DecidableEq, Repr

mutual

/-- Method `baseStage.execute`: depth-first pre-order, fail-fast traversal of a
plan-node tree, translated from the source: return `nil` for a `nil`
node; run the node's own `Execute` and abort on its error; otherwise run
each child in order, aborting on the first child error. -/
def baseStage.execute : PlanNode ε → Option ε
  | .nil => none
  | .node _ res children =>
      match res with
      | some err => some err
      | none => baseStage.executeChildren children

/-- The `for idx := range children` loop of `baseStage.execute`: run each
child in declaration order, returning the first error. -/
def baseStage.executeChildren : List (PlanNode ε) → Option ε
  | [] => none
  | child :: rest =>
      match baseStage.execute child with
      | some err => some err
      | none => baseStage.executeChildren rest

end

mutual

/-- Traversal `baseStage.execute` instrumented with a trace: additionally returns
the labels of the nodes whose `Execute` method was invoked, in invocation
order.  The error component agrees with `baseStage.execute`
(`executeTraced_snd`). -/
def executeTraced : PlanNode ε → List Nat × Option ε
  | .nil => ([], none)
  | .node label res children =>
      match res with
      | some err => ([label], some err)
      | none =>
          let r := executeTracedChildren children
          (label :: r.1, r.2)

/-- The child loop of `executeTraced`. -/
def executeTracedChildren : List (PlanNode ε) → List Nat × Option ε
  | [] => ([], none)
  | child :: rest =>
      let r := executeTraced child
      match r.2 with
      | some err => (r.1, some err)
      | none =>
          let r' := executeTracedChildren rest
          (r.1 ++ r'.1, r'.2)

end

mutual

/-- Depth-first pre-order listing of a tree: each entry is the label of a
node paired with the result its `Execute` method would return.  `nil`
nodes contribute nothing (their `Execute` is never invoked). -/
def preorder : PlanNode ε → List (Nat × Option ε)
  | .nil => []
  | .node label res children => (label, res) :: preorderChildren children

/-- Pre-order listing of a forest, in declaration order. -/
def preorderChildren : List (PlanNode ε) → List (Nat × Option ε)
  | [] => []
  | child :: rest => preorder child ++ preorderChildren rest

end

example : baseStage.execute (ε := Nat)
    (.node 1 none [.node 2 (some 5) [], .node 3 none []]) = some 5 := rfl

example : executeTraced (ε := Nat)
    (.node 1 none [.node 2 (some 5) [], .node 3 none []]) = ([1, 2], some 5) := rfl

example : preorder (ε := Nat)
    (.node 1 none [.node 2 (some 5) [], .node 3 none []]) =
    [(1, none), (2, some 5), (3, none)] := rfl

/-- A `concurrent.Task`: an action closure plus an error-continuation,
as built by `concurrent.NewTask(func(){ execFn() }, errHandle)`. -/
structure GoTask (ε ω : Type) where
  action : Unit → ω
  errCont : ε → ω

/-- The observable result of a call to `baseStage.Execute`: either the
traversal ran synchronously on the calling thread and produced the value
of the continuation it invoked, or a task was submitted to the stage's
pool under the stage's context and the call returned without running the
traversal. -/
inductive ExecResult (ε ω : Type) where
  | sync (r : ω) : ExecResult ε ω
  | submitted (p : Pool) (c : GoContext) (t : GoTask ε ω) : ExecResult ε ω

/-- The `execFn` closure of `baseStage.Execute`: run the sub plan tree
and invoke `errHandle` on its error, else `completeHandle`. -/
def execFn (node : PlanNode ε) (completeHandle : Unit → ω)
    (errHandle : ε → ω) : Unit → ω := fun _ =>
  match baseStage.execute node with
  | some err => errHandle err
  | none => completeHandle ()

/-- Method `baseStage.Execute`, translated from the source: if
`stage.execPool == nil || stage.ctx == nil` run `execFn` inline;
otherwise submit `concurrent.NewTask(func(){ execFn() }, errHandle)` to
the pool under the stage's context. -/
def baseStage.Execute (stage : baseStage) (node : PlanNode ε)
    (completeHandle : Unit → ω) (errHandle : ε → ω) : ExecResult ε ω :=
  match stage.execPool, stage.ctx with
  | none, _ => .sync (execFn node completeHandle errHandle ())
  | some _, none => .sync (execFn node completeHandle errHandle ())
  | some p, some c =>
      .submitted p c ⟨fun _ => execFn node completeHandle errHandle (), errHandle⟩

/-- Modelled from the spec: the `concurrent.Pool` implementation is not
among the given sources.  Per §4.3/§6, a submitted task has exactly two
possible fates: the pool runs the action to completion (`run`), or a
pool-level fault occurs — rejection due to saturation/cancellation, or
an unrecoverable runtime fault inside the action before it reaches a
continuation — and the pool invokes the task's error-continuation with a
fault error `e` (`fault e`). -/
inductive PoolBehavior (ε : Type) where
  | run : PoolBehavior ε
  | fault (e : ε) : PoolBehavior ε

/-- Modelled from the spec: how the pool consumes a submitted task —
either the action completes normally, or the error-continuation fires
with the pool-level fault (§4.3: "either the action completes normally,
or onError fires"). -/
def runTask (t : GoTask ε ω) : PoolBehavior ε → ω
  | .run => t.action ()
  | .fault e => t.errCont e

/-- The eventual value delivered by one full `Execute` call: the inline
value in the synchronous case, or the value the pool worker produces in
the asynchronous case under pool behavior `pb`. -/
def runExec (res : ExecResult ε ω) (pb : PoolBehavior ε) : ω :=
  match res with
  | .sync r => r
  | .submitted _ _ t => runTask t pb

/-- An observable continuation invocation: `completeHandle` was called,
or `errHandle` was called with error `e`. -/
inductive Event (ε : Type) where
  | complete : Event ε
  | error (e : ε) : Event ε
deriving DecidableEq, Repr

/-- The list of continuation invocations produced by one full `Execute`
call on `stage` with root `node`, under pool behavior `pb`: the
continuations are instantiated with loggers that record each call. -/
def events (stage : baseStage) (node : PlanNode ε) (pb : PoolBehavior ε) :
    List (Event ε) :=
  runExec (stage.Execute node (fun _ => [Event.complete]) (fun e => [Event.error e])) pb

/-- Method `baseStage.Type()`: returns the stage's stored type tag.  (`Type` is
a Lean keyword, hence the name `TypeOf`.) -/
def baseStage.TypeOf (stage : baseStage) : StageType :=
  stage.stageType

/-- Method `baseStage.Complete()`: the method body is empty; in state-passing
form it returns the stage unchanged. -/
def baseStage.Complete (stage : baseStage) : baseStage :=
  stage

/-- Method `baseStage.NextStages()`: `return nil` — the empty sequence of
stages, for any element type `σ`. -/
def baseStage.NextStages (σ : Type) (stage : baseStage) : List σ :=
  (fun _ => ([] : List σ)) stage

example : baseStage.Execute (ε := Nat) (ω := List (Event Nat))
    ⟨none, ⟨0⟩, none⟩ (.node 1 (some 7) [])
    (fun _ => [Event.complete]) (fun e => [Event.error e]) =
    .sync [Event.error 7] := rfl

example : events (ε := Nat) ⟨some ⟨3⟩, ⟨0⟩, some ⟨4⟩⟩ (.node 1 none [])
    (.fault 9) = [Event.error 9] := rfl

/-- First-error semantics of a flat pre-order listing: the labels of the
entries a fail-fast left-to-right run would execute, paired with the
first `some` result (or `none` when every entry succeeds). -/
def scanRun : List (Nat × Option ε) → List Nat × Option ε
  | [] => ([], none)
  | (l, some e) :: _ => ([l], some e)
  | (l, none) :: rest =>
      let r := scanRun rest
      (l :: r.1, r.2)

/-- The first error appearing in a pre-order listing. -/
def firstErr : List (Nat × Option ε) → Option ε
  | [] => none
  | (_, some e) :: _ => some e
  | (_, none) :: rest => firstErr rest

/-- How many entries of a pre-order listing a fail-fast run executes:
every entry up to and including the first failing one. -/
def runCount : List (Nat × Option ε) → Nat
  | [] => 0
  | (_, some _) :: _ => 1
  | (_, none) :: rest => runCount rest + 1

/-- The first error of a listing depends only on the sequence of results. -/
def firstErrS : List (Option ε) → Option ε
  | [] => none
  | some e :: _ => some e
  | none :: rest => firstErrS rest

theorem scanRun_append (a b : List (Nat × Option ε)) :
    scanRun (a ++ b) =
      match (scanRun a).2 with
      | some _ => scanRun a
      | none => ((scanRun a).1 ++ (scanRun b).1, (scanRun b).2) := by
  induction a with
  | nil => simp [scanRun]
  | cons hd tl ih =>
      obtain ⟨l, r⟩ := hd
      cases r with
      | some e => simp [scanRun]
      | none =>
          cases h : (scanRun tl).2 with
          | none => simp [scanRun, ih, h]
          | some e => simp [scanRun, ih, h]

theorem scanRun_snd (a : List (Nat × Option ε)) :
    (scanRun a).2 = firstErr a := by
  induction a with
  | nil => rfl
  | cons hd tl ih =>
      obtain ⟨l, r⟩ := hd
      cases r with
      | some e => rfl
      | none => simpa [scanRun, firstErr] using ih

theorem scanRun_fst (a : List (Nat × Option ε)) :
    (scanRun a).1 = (a.take (runCount a)).map Prod.fst := by
  induction a with
  | nil => rfl
  | cons hd tl ih =>
      obtain ⟨l, r⟩ := hd
      cases r with
      | some e => rfl
      | none => simp [scanRun, runCount, ih]

theorem firstErr_eq_none_iff (a : List (Nat × Option ε)) :
    firstErr a = none ↔ ∀ p ∈ a, p.2 = none := by
  induction a with
  | nil => simp [firstErr]
  | cons hd tl ih =>
      obtain ⟨l, r⟩ := hd
      cases r with
      | some e => simp [firstErr]
      | none => simpa [firstErr] using ih

theorem firstErr_eq_firstErrS (a : List (Nat × Option ε)) :
    firstErr a = firstErrS (a.map Prod.snd) := by
  induction a with
  | nil => rfl
  | cons hd tl ih =>
      obtain ⟨l, r⟩ := hd
      cases r with
      | some e => rfl
      | none => simpa [firstErr, firstErrS] using ih

mutual

theorem executeTraced_eq_scanRun : ∀ t : PlanNode ε,
    executeTraced t = scanRun (preorder t)
  | .nil => rfl
  | .node l res cs => by
      cases res with
      | some e => rfl
      | none =>
          have ih := executeTracedChildren_eq_scanRun cs
          simp only [executeTraced, preorder, scanRun, ih]

theorem executeTracedChildren_eq_scanRun : ∀ cs : List (PlanNode ε),
    executeTracedChildren cs = scanRun (preorderChildren cs)
  | [] => rfl
  | c :: rest => by
      have ihc := executeTraced_eq_scanRun c
      have ihr := executeTracedChildren_eq_scanRun rest
      rw [preorderChildren, scanRun_append]
      cases h : (scanRun (preorder c)).2 with
      | some e =>
          simp only [executeTracedChildren, ihc, h]
          rw [← h]
      | none =>
          simp only [executeTracedChildren, ihc, ihr, h]

end

mutual

theorem execute_eq_traced : ∀ t : PlanNode ε,
    baseStage.execute t = (executeTraced t).2
  | .nil => rfl
  | .node l res cs => by
      cases res with
      | some e => rfl
      | none =>
          have ih := executeChildren_eq_traced cs
          simp only [baseStage.execute, executeTraced, ih]

theorem executeChildren_eq_traced : ∀ cs : List (PlanNode ε),
    baseStage.executeChildren cs = (executeTracedChildren cs).2
  | [] => rfl
  | c :: rest => by
      have ihc := execute_eq_traced c
      have ihr := executeChildren_eq_traced rest
      rw [baseStage.executeChildren, ihc]
      cases h : (executeTraced c).2 with
      | some e => simp only [executeTracedChildren, h]
      | none => simp only [executeTracedChildren, h, ihr]

end

/-- The traversal result is the first error of the pre-order listing. -/
theorem execute_eq_firstErr (t : PlanNode ε) :
    baseStage.execute t = firstErr (preorder t) := by
  rw [execute_eq_traced, executeTraced_eq_scanRun, scanRun_snd]

/-- The trace of executed nodes is exactly the pre-order prefix up to and
including the first failing node (the whole pre-order when no node fails). -/
theorem trace_eq_take (t : PlanNode ε) :
    (executeTraced t).1 = ((preorder t).take (runCount (preorder t))).map Prod.fst := by
  rw [executeTraced_eq_scanRun, scanRun_fst]

/-- One call to a `baseStage` method, for reasoning about call sequences
on a single stage instance (`Execute` carries its root node and the pool
behavior of the run it triggers). -/
inductive StageOp (ε : Type) where
  | typeOp : StageOp ε
  | executeOp (node : PlanNode ε) (pb : PoolBehavior ε) : StageOp ε
  | completeOp : StageOp ε
  | nextStagesOp : StageOp ε

/-- State transition of each `baseStage` method call: no method body of
the source assigns to any receiver field (`ctx`, `stageType`,
`execPool`), so in state-passing form each call returns the receiver it
was given; `Complete` is routed through its definition. -/
def stepStage (stage : baseStage) : StageOp ε → baseStage
  | .typeOp => stage
  | .executeOp _ _ => stage
  | .completeOp => stage.Complete
  | .nextStagesOp => stage

theorem foldl_stepStage (stage : baseStage) (ops : List (StageOp ε)) :
    List.foldl stepStage stage ops = stage := by
  induction ops generalizing stage with
  | nil => rfl
  | cons op rest ih => cases op <;> simpa [stepStage, baseStage.Complete] using ih _

/-- Whenever the run is synchronous, or the pool runs the submitted
action, the event log is determined by the traversal result. -/
theorem events_eq_of_run (stage : baseStage) (t : PlanNode ε)
    (pb : PoolBehavior ε)
    (h : stage.execPool = none ∨ stage.ctx = none ∨ pb = PoolBehavior.run) :
    events stage t pb =
      match baseStage.execute t with
      | none => [Event.complete]
      | some e => [Event.error e] := by
  obtain ⟨cx, st, pl⟩ := stage
  cases pl with
  | none =>
      cases hE : baseStage.execute t <;>
        simp [events, baseStage.Execute, runExec, execFn, hE]
  | some p =>
      cases cx with
      | none =>
          cases hE : baseStage.execute t <;>
            simp [events, baseStage.Execute, runExec, execFn, hE]
      | some c =>
          have hpb : pb = PoolBehavior.run := by
            rcases h with h | h | h
            · exact absurd h (by simp)
            · exact absurd h (by simp)
            · exact h
          subst hpb
          cases hE : baseStage.execute t <;>
            simp [events, baseStage.Execute, runExec, runTask, execFn, hE]

/-- The synchronous branch of `baseStage.Execute`: with no pool or no
context configured, the traversal runs inline. -/
theorem Execute_sync_of (stage : baseStage) (t : PlanNode ε)
    (ch : Unit → ω) (eh : ε → ω)
    (h : stage.execPool = none ∨ stage.ctx = none) :
    stage.Execute t ch eh = ExecResult.sync (execFn t ch eh ()) := by
  obtain ⟨cx, st, pl⟩ := stage
  cases pl with
  | none => rfl
  | some p =>
      cases cx with
      | none => rfl
      | some c =>
          rcases h with h | h
          · exact absurd h (by simp)
          · exact absurd h (by simp)

/-- The asynchronous branch of `baseStage.Execute`: with a pool and a
context configured, a task packaging `execFn` together with the caller's
`errHandle` is submitted to that pool under that context. -/
theorem Execute_submitted_of (stage : baseStage) (t : PlanNode ε)
    (ch : Unit → ω) (eh : ε → ω) (p : Pool) (c : GoContext)
    (hp : stage.execPool = some p) (hc : stage.ctx = some c) :
    stage.Execute t ch eh =
      ExecResult.submitted p c ⟨fun _ => execFn t ch eh (), eh⟩ := by
  obtain ⟨cx, st, pl⟩ := stage
  simp only at hp hc
  subst hp; subst hc
  rfl

/-- C1: for every call to `baseStage.Execute(node, completeHandle,
errHandle)`, exactly one of the two continuations is invoked — never
zero and never both — in the synchronous path (no pool or no context),
in the asynchronous path when the pool runs the submitted action, and
when the pool's error-continuation mechanism fires for a fault inside
the submitted action: the event log of a full execution is always a
single `complete` or a single `error` event. -/
theorem C1_exactly_one_fires (stage : baseStage) (t : PlanNode ε)
    (pb : PoolBehavior ε) :
    events stage t pb = [Event.complete] ∨
      ∃ e, events stage t pb = [Event.error e] := by
  obtain ⟨cx, st, pl⟩ := stage
  by_cases h : (Option.isNone pl ∨ Option.isNone cx ∨ pb = PoolBehavior.run)
  · have h' : (baseStage.mk cx st pl).execPool = none ∨
        (baseStage.mk cx st pl).ctx = none ∨ pb = PoolBehavior.run := by
      rcases h with h | h | h
      · exact Or.inl (by simpa [Option.isNone_iff_eq_none] using h)
      · exact Or.inr (Or.inl (by simpa [Option.isNone_iff_eq_none] using h))
      · exact Or.inr (Or.inr h)
    rw [events_eq_of_run _ _ _ h']
    cases baseStage.execute t with
    | none => exact Or.inl rfl
    | some e => exact Or.inr ⟨e, rfl⟩
  · push_neg at h
    obtain ⟨h1, h2, h3⟩ := h
    obtain ⟨p, hp⟩ := Option.ne_none_iff_exists'.1 (by simpa [Option.isNone_iff_eq_none] using h1)
    obtain ⟨c, hc⟩ := Option.ne_none_iff_exists'.1 (by simpa [Option.isNone_iff_eq_none] using h2)
    cases pb with
    | run => exact absurd rfl h3
    | fault e =>
        subst hp; subst hc
        exact Or.inr ⟨e, rfl⟩

/-- C2: over a finite plan tree run synchronously or with the pool
running the action, if every node's `Execute` returns `nil` then only
`completeHandle` fires (exactly one `complete` event); if some node
fails, `errHandle` receives exactly the error of the first failing node
in depth-first pre-order, untranslated, and the executed nodes are
exactly the pre-order prefix up to and including that node — no node
after it in traversal order has its `Execute` invoked. -/
theorem C2_first_preorder_error (stage : baseStage) (t : PlanNode ε)
    (pb : PoolBehavior ε)
    (hrun : stage.execPool = none ∨ stage.ctx = none ∨ pb = PoolBehavior.run) :
    ((∀ p ∈ preorder t, p.2 = none) → events stage t pb = [Event.complete]) ∧
    (∀ e, firstErr (preorder t) = some e →
      events stage t pb = [Event.error e] ∧
      (executeTraced t).1 =
        ((preorder t).take (runCount (preorder t))).map Prod.fst) := by
  rw [events_eq_of_run _ _ _ hrun]
  constructor
  · intro hall
    have h0 : firstErr (preorder t) = none := (firstErr_eq_none_iff _).2 hall
    rw [execute_eq_firstErr, h0]
  · intro e he
    rw [execute_eq_firstErr, he]
    exact ⟨rfl, trace_eq_take t⟩

/-- Witness for C2 on the spec's own scenario: tree `A(1) -> [B(2)
fails with 5, C(3)]` — `A` runs, `B` runs and fails, `C` is never
invoked, `errHandle` receives `B`'s error. -/
theorem C2_witness :
    events (ε := Nat) ⟨none, ⟨0⟩, none⟩
        (.node 1 none [.node 2 (some 5) [], .node 3 none []]) .run =
      [Event.error 5] ∧
    (executeTraced (ε := Nat)
        (.node 1 none [.node 2 (some 5) [], .node 3 none []])).1 = [1, 2] := by
  have h := C2_first_preorder_error (ε := Nat) ⟨none, ⟨0⟩, none⟩
    (.node 1 none [.node 2 (some 5) [], .node 3 none []]) .run (Or.inl rfl)
  have h2 := h.2 5 rfl
  refine ⟨h2.1, ?_⟩
  rw [h2.2]
  rfl

/-- C3: `baseStage.execute` runs node `Execute` methods in strict
depth-first pre-order with fail-fast abort: the executed nodes are
exactly the pre-order prefix up to the first failure (the whole
pre-order when none fails), the returned error is the first pre-order
error, and by the unfolding equations a node's own entry precedes its
children's, children in declaration order. -/
theorem C3_depth_first_preorder (t : PlanNode ε) :
    (executeTraced t).1 =
      ((preorder t).take (runCount (preorder t))).map Prod.fst ∧
    baseStage.execute t = firstErr (preorder t) ∧
    (∀ (label : Nat) (res : Option ε) (cs : List (PlanNode ε)),
      preorder (PlanNode.node label res cs) =
        (label, res) :: preorderChildren cs) ∧
    (∀ (c : PlanNode ε) (rest : List (PlanNode ε)),
      preorderChildren (c :: rest) = preorder c ++ preorderChildren rest) :=
  ⟨trace_eq_take t, execute_eq_firstErr t, fun _ _ _ => rfl, fun _ _ => rfl⟩

/-- C4: `baseStage.Execute` runs the traversal synchronously inline,
with the continuation value produced before it returns, exactly when the
pool or the context is nil; otherwise it packages the traversal as a
task and returns a submission to the pool under the stage's context
without running the traversal, the continuation firing later when the
pool runs the task's action. -/
theorem C4_sync_or_submit (stage : baseStage) (t : PlanNode ε)
    (ch : Unit → ω) (eh : ε → ω) :
    (stage.execPool = none ∨ stage.ctx = none →
      stage.Execute t ch eh = ExecResult.sync (execFn t ch eh ())) ∧
    (∀ p c, stage.execPool = some p → stage.ctx = some c →
      stage.Execute t ch eh =
        ExecResult.submitted p c ⟨fun _ => execFn t ch eh (), eh⟩ ∧
      runTask (⟨fun _ => execFn t ch eh (), eh⟩ : GoTask ε ω) PoolBehavior.run =
        execFn t ch eh ()) :=
  ⟨fun h => Execute_sync_of stage t ch eh h,
   fun p c hp hc => ⟨Execute_submitted_of stage t ch eh p c hp hc, rfl⟩⟩

/-- Witness for C4: a stage with no pool runs inline; a stage with pool
and context submits. -/
theorem C4_witness :
    baseStage.Execute (ε := Nat) ⟨none, ⟨0⟩, none⟩ (.node 1 (some 7) [])
        (fun _ => [Event.complete]) (fun e => [Event.error e]) =
      ExecResult.sync [Event.error 7] ∧
    baseStage.Execute (ε := Nat) ⟨some ⟨2⟩, ⟨0⟩, some ⟨3⟩⟩ (.node 1 (some 7) [])
        (fun _ => [Event.complete]) (fun e => [Event.error e]) =
      ExecResult.submitted ⟨3⟩ ⟨2⟩
        ⟨fun _ => execFn (.node 1 (some 7) [])
            (fun _ => [Event.complete]) (fun e => [Event.error e]) (), 
          fun e => [Event.error e]⟩ := by
  constructor
  · rw [(C4_sync_or_submit (ε := Nat) ⟨none, ⟨0⟩, none⟩ (.node 1 (some 7) [])
      (fun _ => [Event.complete]) (fun e => [Event.error e])).1 (Or.inl rfl)]
    rfl
  · exact ((C4_sync_or_submit (ε := Nat) ⟨some ⟨2⟩, ⟨0⟩, some ⟨3⟩⟩
      (.node 1 (some 7) []) (fun _ => [Event.complete])
      (fun e => [Event.error e])).2 ⟨3⟩ ⟨2⟩ rfl rfl).1

/-- C5: a nil node is a no-op success: `baseStage.execute nil` returns
`nil` with no node `Execute` invoked, so `Execute` on a nil node invokes
`completeHandle`; a nil child inside a tree terminates recursion on that
branch without error. -/
theorem C5_nil_noop_success (stage : baseStage) (rest : List (PlanNode ε)) :
    baseStage.execute (PlanNode.nil : PlanNode ε) = none ∧
    executeTraced (PlanNode.nil : PlanNode ε) = ([], none) ∧
    baseStage.executeChildren (PlanNode.nil :: rest) =
      baseStage.executeChildren rest ∧
    executeTracedChildren (PlanNode.nil :: rest) = executeTracedChildren rest ∧
    events stage (PlanNode.nil : PlanNode ε) PoolBehavior.run = [Event.complete] := by
  refine ⟨rfl, rfl, rfl, rfl, ?_⟩
  rw [events_eq_of_run _ _ _ (Or.inr (Or.inr rfl))]
  rfl

/-- C6: the traversal is a total function of the finite tree (so every
execution terminates), and when the tree's nodes are pairwise distinct
each node's `Execute` is invoked at most once — exactly once for every
node up to and including the first pre-order failure (all nodes when
none fails). -/
theorem C6_each_node_once (t : PlanNode ε)
    (h : ((preorder t).map Prod.fst).Nodup) :
    (executeTraced t).1.Nodup ∧
    (∀ l : Nat, (executeTraced t).1.count l ≤ 1) ∧
    (∀ p ∈ (preorder t).take (runCount (preorder t)),
      (executeTraced t).1.count p.1 = 1) := by
  have htr := trace_eq_take t
  have hsub : (((preorder t).take (runCount (preorder t))).map Prod.fst).Nodup := by
    rw [List.map_take]
    exact List.Nodup.sublist (List.take_sublist _ _) h
  have hnd : (executeTraced t).1.Nodup := htr ▸ hsub
  refine ⟨hnd, fun l => List.nodup_iff_count_le_one.1 hnd l, fun p hp => ?_⟩
  apply List.count_eq_one_of_mem hnd
  rw [htr]
  exact List.mem_map_of_mem Prod.fst hp

/-- Witness for C6 on a concrete three-node tree with distinct nodes. -/
theorem C6_witness :
    ((preorder (ε := Nat)
        (.node 1 none [.node 2 (some 5) [], .node 3 none []])).map Prod.fst).Nodup ∧
    (executeTraced (ε := Nat)
        (.node 1 none [.node 2 (some 5) [], .node 3 none []])).1.Nodup :=
  ⟨by decide,
   (C6_each_node_once (ε := Nat)
      (.node 1 none [.node 2 (some 5) [], .node 3 none []]) (by decide)).1⟩

/-- C7: in the asynchronous path the caller's `errHandle` is installed
verbatim as the submitted task's error-continuation, so a pool-level
fault — rejection or an unrecoverable fault inside the action — invokes
the very `errHandle` passed to `Execute`, reaching it through the same
channel as a node execution error. -/
theorem C7_fault_reaches_errHandle (stage : baseStage) (t : PlanNode ε)
    (ch : Unit → ω) (eh : ε → ω) (p : Pool) (c : GoContext) (e : ε)
    (hp : stage.execPool = some p) (hc : stage.ctx = some c) :
    stage.Execute t ch eh =
      ExecResult.submitted p c ⟨fun _ => execFn t ch eh (), eh⟩ ∧
    runExec (stage.Execute t ch eh) (PoolBehavior.fault e) = eh e ∧
    events stage t (PoolBehavior.fault e) = [Event.error e] := by
  have hsub := Execute_submitted_of stage t ch eh p c hp hc
  have hsubL := Execute_submitted_of stage t
    (fun _ => [Event.complete]) (fun e => [Event.error e]) p c hp hc
  refine ⟨hsub, ?_, ?_⟩
  · rw [hsub]; rfl
  · unfold events; rw [hsubL]; rfl

/-- Witness for C7: a concrete stage with pool and context, faulting
with error 9. -/
theorem C7_witness :
    events (ε := Nat) ⟨some ⟨2⟩, ⟨0⟩, some ⟨3⟩⟩ (.node 1 none [])
      (PoolBehavior.fault 9) = [Event.error 9] :=
  (C7_fault_reaches_errHandle (ε := Nat) (ω := List (Event Nat))
    ⟨some ⟨2⟩, ⟨0⟩, some ⟨3⟩⟩ (.node 1 none [])
    (fun _ => [Event.complete]) (fun e => [Event.error e])
    ⟨3⟩ ⟨2⟩ 9 rfl rfl).2.2

/-- C8: the default `Complete()` is a no-op — the stage is unchanged,
and calling it again after completion is equally a no-op — and the
default `NextStages()` returns the empty sequence, for every stage
instance and element type. -/
theorem C8_default_hooks (stage : baseStage) (σ : Type) :
    baseStage.Complete stage = stage ∧
    baseStage.Complete (baseStage.Complete stage) = stage ∧
    baseStage.NextStages σ stage = [] ∧
    (baseStage.NextStages σ stage).length = 0 :=
  ⟨rfl, rfl, rfl, rfl⟩

/-- C9: `Type()` is a pure accessor of the stored tag, and no sequence
of `baseStage` method calls (`Type`, `Execute`, `Complete`,
`NextStages`) changes any of the stage's fields or the behavior of a
subsequent `Execute`. -/
theorem C9_no_field_mutation (stage : baseStage) (ops : List (StageOp ε)) :
    baseStage.TypeOf stage = stage.stageType ∧
    List.foldl stepStage stage ops = stage ∧
    (List.foldl stepStage stage ops).ctx = stage.ctx ∧
    (List.foldl stepStage stage ops).stageType = stage.stageType ∧
    (List.foldl stepStage stage ops).execPool = stage.execPool ∧
    (∀ (t : PlanNode ε) (pb : PoolBehavior ε),
      events (List.foldl stepStage stage ops) t pb = events stage t pb) := by
  have h := foldl_stepStage stage ops
  exact ⟨rfl, h, by rw [h], by rw [h], by rw [h], fun t pb => by rw [h]⟩

/-- C10: the synchronous path is deterministic and history-independent:
under a nil pool or nil context, two trees whose nodes return the same
results in the same pre-order positions produce the same continuation
events (same continuation, same error value), the outcome is unchanged
by any prior method calls on the stage, and the run is inline. -/
theorem C10_sync_deterministic (stage : baseStage) (t1 t2 : PlanNode ε)
    (pb : PoolBehavior ε) (ops : List (StageOp ε))
    (hsync : stage.execPool = none ∨ stage.ctx = none)
    (h : (preorder t1).map Prod.snd = (preorder t2).map Prod.snd) :
    events stage t1 pb = events stage t2 pb ∧
    events (List.foldl stepStage stage ops) t1 pb = events stage t1 pb ∧
    (∀ (ch : Unit → ω) (eh : ε → ω),
      stage.Execute t1 ch eh = ExecResult.sync (execFn t1 ch eh ())) := by
  have hrun : stage.execPool = none ∨ stage.ctx = none ∨ pb = PoolBehavior.run :=
    hsync.elim Or.inl (fun hc => Or.inr (Or.inl hc))
  have hexec : baseStage.execute t1 = baseStage.execute t2 := by
    rw [execute_eq_firstErr, execute_eq_firstErr,
      firstErr_eq_firstErrS, firstErr_eq_firstErrS, h]
  refine ⟨?_, ?_, fun ch eh => Execute_sync_of stage t1 ch eh hsync⟩
  · rw [events_eq_of_run _ _ _ hrun, events_eq_of_run _ _ _ hrun, hexec]
  · rw [foldl_stepStage]

/-- Witness for C10: two differently shaped trees with the same result
sequence give the same single event; history of calls is irrelevant. -/
theorem C10_witness :
    events (ε := Nat) ⟨none, ⟨0⟩, none⟩
        (.node 1 none [.node 2 (some 5) []]) .run =
      events (ε := Nat) ⟨none, ⟨0⟩, none⟩
        (.node 7 none [.node 8 (some 5) []]) .run ∧
    events (ε := Nat)
        (List.foldl stepStage ⟨none, ⟨0⟩, none⟩
          ([StageOp.typeOp, StageOp.completeOp, StageOp.nextStagesOp] :
            List (StageOp Nat)))
        (.node 1 none [.node 2 (some 5) []]) .run =
      events (ε := Nat) ⟨none, ⟨0⟩, none⟩
        (.node 1 none [.node 2 (some 5) []]) .run := by
  have h := C10_sync_deterministic (ε := Nat) (ω := List (Event Nat))
    ⟨none, ⟨0⟩, none⟩ (.node 1 none [.node 2 (some 5) []])
    (.node 7 none [.node 8 (some 5) []]) .run
    [StageOp.typeOp, StageOp.completeOp, StageOp.nextStagesOp]
    (Or.inl rfl) (by decide)
  exact ⟨h.1, h.2.1⟩
